import Mathlib

set_option maxHeartbeats 1000000

/-! Formal model of the PrecisionPour image asset tools
(tools/convert_logo.py and tools/test_rle_compression.py): the RLE codec,
the black-border trimmer, the RGB565 packer and the compression-selection
step of the conversion pipeline, together with proofs of the specified
properties. Bytes are modelled as natural numbers. -/

/-- Emission of one literal byte by the encoder: the marker 0xFF is written
as the two-byte escape 0xFF 0x00, any other byte stands for itself
(the body of the literal loop of rle_compress). -/
def escByte (x : Nat) : List Nat :=
  if x = 255 then [255, 0] else [x]

/-- Length of the run of bytes equal to v at the head of the list
(the inner while loop of rle_compress counts 1 + runLen, capped at 255). -/
def runLen (v : Nat) : List Nat → Nat
  | [] => 0
  | b :: l => if b = v then runLen v l + 1 else 0

/-- rle_compress from tools/convert_logo.py (identical copy in
tools/test_rle_compression.py): at each position count the run of identical
bytes capped at 255; a run of length at least 4 is emitted as the token
0xFF, count, value; a shorter run is emitted literally byte by byte with
0xFF escaped as 0xFF 0x00. -/
def rle_compress : List Nat → List Nat
  | [] => []
  | b :: rest =>
    let c := min (runLen b rest + 1) 255
    if 4 ≤ c then
      255 :: c :: b :: rle_compress (rest.drop (c - 1))
    else
      ((b :: rest).take c).flatMap escByte ++ rle_compress (rest.drop (c - 1))
termination_by l => l.length
decreasing_by
  all_goals simp only [List.length_drop, List.length_cons]; omega

/-- rle_decompress from tools/test_rle_compression.py: on the marker 0xFF,
a following 0x00 is an escaped literal 0xFF; otherwise if two more bytes
are available they are a count and a value; otherwise the marker is
malformed and emitted literally, consuming one byte. Any non-marker byte
is a literal. -/
def rle_decompress : List Nat → List Nat
  | [] => []
  | 255 :: 0 :: rest => 255 :: rle_decompress rest
  | 255 :: c :: v :: rest => List.replicate c v ++ rle_decompress rest
  | 255 :: rest => 255 :: rle_decompress rest
  | a :: rest => a :: rle_decompress rest

/-- Well-formedness of an encoded stream with respect to run counts: every
run token carries a count in [1, 255], escapes and literals are allowed,
and no dangling marker occurs. -/
def runCountsOK : List Nat → Bool
  | [] => true
  | 255 :: 0 :: rest => runCountsOK rest
  | 255 :: c :: _ :: rest => decide (1 ≤ c ∧ c ≤ 255) && runCountsOK rest
  | 255 :: _ => false
  | _ :: rest => runCountsOK rest

/-- An 8-bit-per-channel RGB pixel. -/
structure RGB where
  r : Nat
  g : Nat
  b : Nat
deriving DecidableEq

/-- A raster image: dimensions plus a pixel access function, matching how
the scripts use PIL images through img.size and pixels[x, y]. -/
@[ext]
structure RasterImage where
  width : Nat
  height : Nat
  px : Nat → Nat → RGB

/-- Condition of the border scans in trim_black_borders: some channel
strictly exceeds the threshold (r > threshold or g > threshold or
b > threshold). -/
def RGB.exceeds (p : RGB) (t : Nat) : Bool :=
  decide (t < p.r) || decide (t < p.g) || decide (t < p.b)

/-- Row y contains a pixel over the threshold. -/
def rowHasBright (img : RasterImage) (t y : Nat) : Bool :=
  (List.range img.width).any fun x => (img.px x y).exceeds t

/-- Column x contains a pixel over the threshold. -/
def colHasBright (img : RasterImage) (t x : Nat) : Bool :=
  (List.range img.height).any fun y => (img.px x y).exceeds t

/-- Top border scan of trim_black_borders: the first row from the top
containing a bright pixel, 0 if no row does. -/
def topBorder (img : RasterImage) (t : Nat) : Nat :=
  ((List.range img.height).find? (rowHasBright img t)).getD 0

/-- Bottom border scan: the first row from the bottom containing a bright
pixel, height - 1 if no row does. -/
def bottomBorder (img : RasterImage) (t : Nat) : Nat :=
  ((List.range img.height).reverse.find? (rowHasBright img t)).getD (img.height - 1)

/-- Left border scan: the first column from the left containing a bright
pixel, 0 if no column does. -/
def leftBorder (img : RasterImage) (t : Nat) : Nat :=
  ((List.range img.width).find? (colHasBright img t)).getD 0

/-- Right border scan: the first column from the right containing a bright
pixel, width - 1 if no column does. -/
def rightBorder (img : RasterImage) (t : Nat) : Nat :=
  ((List.range img.width).reverse.find? (colHasBright img t)).getD (img.width - 1)

/-- img.crop((left, top, right + 1, bottom + 1)): the sub-image of the
pixels with left ≤ x ≤ right and top ≤ y ≤ bottom. -/
def crop (img : RasterImage) (left top right bottom : Nat) : RasterImage :=
  { width := right + 1 - left
    height := bottom + 1 - top
    px := fun x y => img.px (x + left) (y + top) }

/-- trim_black_borders from tools/convert_logo.py: crop to the four border
scans when left < right and top < bottom, otherwise return the image
unchanged. -/
def trim_black_borders (img : RasterImage) (t : Nat) : RasterImage :=
  if leftBorder img t < rightBorder img t ∧ topBorder img t < bottomBorder img t then
    crop img (leftBorder img t) (topBorder img t) (rightBorder img t) (bottomBorder img t)
  else img

/-- A pixel position inside the image whose color exceeds the threshold in
some channel: the pixels the trimmer must keep. -/
def qualifies (img : RasterImage) (t x y : Nat) : Prop :=
  x < img.width ∧ y < img.height ∧ (img.px x y).exceeds t = true

/-- A concrete uniformly black 2-by-2 image. -/
def blackImage : RasterImage :=
  { width := 2, height := 2, px := fun _ _ => { r := 0, g := 0, b := 0 } }

/-- The smallest rectangle (inclusive coordinates l, tp, r, bt) enclosing
every pixel over the threshold: all such pixels lie inside it and each of
its four edges touches one. -/
def isBoundingBox (img : RasterImage) (t l tp r bt : Nat) : Prop :=
  (∀ x y, qualifies img t x y → l ≤ x ∧ x ≤ r ∧ tp ≤ y ∧ y ≤ bt) ∧
  (∃ y, qualifies img t l y) ∧ (∃ y, qualifies img t r y) ∧
  (∃ x, qualifies img t x tp) ∧ (∃ x, qualifies img t x bt)

/-- A 4-by-4 image whose bright pixels are at (1,1) and (2,2). -/
def spreadImage : RasterImage :=
  { width := 4, height := 4
    px := fun x y =>
      if x = y ∧ (x = 1 ∨ x = 2) then { r := 255, g := 255, b := 255 }
      else { r := 0, g := 0, b := 0 } }

/-- A 3-by-3 image whose only bright pixel is the center (1,1). -/
def centerDotImage : RasterImage :=
  { width := 3, height := 3
    px := fun x y =>
      if x = 1 ∧ y = 1 then { r := 255, g := 255, b := 255 }
      else { r := 0, g := 0, b := 0 } }

/-- The RGB888 to RGB565 word conversion of convert_to_lvgl_rgb565:
rgb565 = ((r >> 3) << 11) | ((g >> 2) << 5) | (b >> 3). -/
def rgb565 (p : RGB) : Nat :=
  ((p.r >>> 3) <<< 11) ||| ((p.g >>> 2) <<< 5) ||| (p.b >>> 3)

/-- The two bytes appended per pixel: low byte first, then high byte
(little-endian). -/
def pixelBytes (p : RGB) : List Nat :=
  [rgb565 p &&& 0xFF, (rgb565 p >>> 8) &&& 0xFF]

/-- The pixel-packing loops of convert_to_lvgl_rgb565: row-major traversal
appending two bytes per pixel. -/
def pack565 (img : RasterImage) : List Nat :=
  (List.range img.height).flatMap fun y =>
    (List.range img.width).flatMap fun x => pixelBytes (img.px x y)

/-- A concrete 2-by-1 image: a red pixel (255,0,0) then a black pixel. -/
def redBlackImage : RasterImage :=
  { width := 2, height := 1
    px := fun x _ =>
      if x = 0 then { r := 255, g := 0, b := 0 } else { r := 0, g := 0, b := 0 } }

/-- The compression-selection step of convert_to_lvgl_rgb565: compress
speculatively and keep the compressed form only if strictly smaller,
otherwise keep the packed bytes with the flag cleared. -/
def selectStored (packed : List Nat) : List Nat × Bool :=
  if (rle_compress packed).length < packed.length then (rle_compress packed, true)
  else (packed, false)

/-- The data recorded into the generated header by convert_to_lvgl_rgb565:
dimensions, stored bytes, compression flag and the two sizes. -/
@[ext]
structure AssetRecord where
  width : Nat
  height : Nat
  data : List Nat
  is_compressed : Bool
  data_size : Nat
  uncompressed_size : Nat
deriving DecidableEq

/-- The pure data part of convert_to_lvgl_rgb565 from tools/convert_logo.py:
optional trimming at threshold 10, RGB565 packing, optional speculative RLE
compression kept only when strictly smaller. -/
def convert_to_lvgl_rgb565 (img : RasterImage) (trim_borders use_rle : Bool) :
    AssetRecord :=
  let img1 := if trim_borders then trim_black_borders img 10 else img
  let packed := pack565 img1
  let stored := if use_rle then selectStored packed else (packed, false)
  { width := img1.width
    height := img1.height
    data := stored.1
    is_compressed := stored.2
    data_size := stored.1.length
    uncompressed_size := packed.length }

/-- Modelled from the spec: the compression stage with the
DecompressionMismatch self-check the specification describes for the
conversion pipeline (the runtime check itself appears only in
tools/test_rle_compression.py): compress, verify that decoding reproduces
the packed buffer, fail fatally (no asset) on mismatch, otherwise select
exactly as the pipeline does. -/
def selectStoredChecked (packed : List Nat) : Option (List Nat × Bool) :=
  if rle_decompress (rle_compress packed) = packed then some (selectStored packed)
  else none

/-- Modelled from the spec: the error taxonomy of the specification
(section 7), of which only InvalidImageDimensions concerns the conversion
entry; no corresponding check exists in tools/convert_logo.py. -/
inductive ConvError where
  | invalidImageDimensions
deriving DecidableEq

/-- Modelled from the spec: the conversion contract as the specification
states it, rejecting zero width or height before any stage runs (spec
definition, for comparison with the source pipeline). -/
def convertChecked (img : RasterImage) (trim_borders use_rle : Bool) :
    Except ConvError AssetRecord :=
  if img.width = 0 ∨ img.height = 0 then Except.error ConvError.invalidImageDimensions
  else Except.ok (convert_to_lvgl_rgb565 img trim_borders use_rle)

/-- A concrete 0-by-5 image. -/
def zeroWidthImage : RasterImage :=
  { width := 0, height := 5, px := fun _ _ => { r := 0, g := 0, b := 0 } }

theorem rle_decompress_nil : rle_decompress [] = [] := rfl

theorem rle_decompress_esc (r : List Nat) :
    rle_decompress (255 :: 0 :: r) = 255 :: rle_decompress r := by
  cases r with
  | nil => rfl
  | cons a t => rfl

theorem rle_decompress_run (c v : Nat) (r : List Nat) (hc : c ≠ 0) :
    rle_decompress (255 :: c :: v :: r) = List.replicate c v ++ rle_decompress r := by
  cases c with
  | zero => exact absurd rfl hc
  | succ n => rfl

theorem rle_decompress_marker_last : rle_decompress [255] = [255] := rfl

theorem rle_decompress_marker_pair (c : Nat) (hc : c ≠ 0) :
    rle_decompress [255, c] = 255 :: rle_decompress [c] := by
  rw [rle_decompress.eq_def]
  split <;> simp_all

theorem rle_decompress_lit (a : Nat) (r : List Nat) (ha : a ≠ 255) :
    rle_decompress (a :: r) = a :: rle_decompress r := by
  rw [rle_decompress.eq_def]
  split <;> simp_all

theorem escByte_marker : escByte 255 = [255, 0] := rfl

theorem escByte_lit (x : Nat) (hx : x ≠ 255) : escByte x = [x] := if_neg hx

/-- Decoding an escaped literal emitted by the encoder recovers the byte,
whatever follows. -/
theorem rle_decompress_escChunk (xs t : List Nat) :
    rle_decompress (xs.flatMap escByte ++ t) = xs ++ rle_decompress t := by
  induction xs with
  | nil => simp
  | cons x xs ih =>
    rw [List.flatMap_cons, List.append_assoc]
    by_cases hx : x = 255
    · subst hx
      simp only [escByte_marker, List.cons_append, List.nil_append]
      rw [rle_decompress_esc, ih]
    · rw [escByte_lit _ hx, List.singleton_append, rle_decompress_lit _ _ hx, ih,
        List.cons_append]

/-- Taking k bytes of a run of k identical bytes and putting them back in
front of the rest of the list is the identity. -/
theorem replicate_append_drop (v : Nat) (l : List Nat) (k : Nat) (hk : k ≤ runLen v l) :
    List.replicate k v ++ l.drop k = l := by
  induction l generalizing k with
  | nil =>
    simp [runLen] at hk
    subst hk
    simp
  | cons x l ih =>
    cases k with
    | zero => simp
    | succ j =>
      by_cases hx : x = v
      · subst hx
        simp [runLen] at hk
        have hj : j ≤ runLen x l := by omega
        simpa [List.replicate_succ] using ih j hj
      · simp [runLen, hx] at hk

/-- Decoding the encoder output followed by any tail decodes the tail
independently: encoder chunks are parsed back exactly. -/
theorem rle_decompress_compress_append :
    ∀ (l t : List Nat), rle_decompress (rle_compress l ++ t) = l ++ rle_decompress t := by
  have H : ∀ (n : Nat) (l : List Nat), l.length ≤ n →
      ∀ t, rle_decompress (rle_compress l ++ t) = l ++ rle_decompress t := by
    intro n
    induction n with
    | zero =>
      intro l hl t
      have hnil : l = [] := List.length_eq_zero.mp (Nat.le_zero.mp hl)
      subst hnil
      simp [rle_compress]
    | succ n ih =>
      intro l hl t
      match l with
      | [] => simp [rle_compress]
      | b :: rest =>
        have hlen : (rest.drop (min (runLen b rest + 1) 255 - 1)).length ≤ n := by
          simp only [List.length_cons] at hl
          simp only [List.length_drop]
          omega
        have h1 : 1 ≤ min (runLen b rest + 1) 255 := le_min (by omega) (by omega)
        have hcle : min (runLen b rest + 1) 255 ≤ runLen b rest + 1 := min_le_left _ _
        obtain ⟨k, hk⟩ : ∃ k, min (runLen b rest + 1) 255 = k + 1 :=
          ⟨min (runLen b rest + 1) 255 - 1, by omega⟩
        rw [rle_compress.eq_def]
        dsimp only
        by_cases h4 : 4 ≤ min (runLen b rest + 1) 255
        · rw [if_pos h4]
          rw [List.cons_append, List.cons_append, List.cons_append]
          rw [rle_decompress_run _ _ _ (by omega)]
          rw [ih _ hlen]
          rw [hk, ← List.append_assoc]
          have hrep : List.replicate (k + 1) b ++ List.drop (k + 1 - 1) rest = b :: rest := by
            simp only [Nat.add_sub_cancel, List.replicate_succ, List.cons_append]
            congr 1
            exact replicate_append_drop b rest k (by omega)
          rw [hrep, List.cons_append]
        · rw [if_neg h4]
          rw [List.append_assoc]
          rw [rle_decompress_escChunk]
          rw [ih _ hlen]
          rw [hk, ← List.append_assoc]
          have htake : (b :: rest).take (k + 1) ++ List.drop (k + 1 - 1) rest = b :: rest := by
            simp only [Nat.add_sub_cancel, List.take_succ_cons, List.cons_append]
            congr 1
            exact List.take_append_drop k rest
          rw [htake, List.cons_append]
  intro l t
  exact H l.length l le_rfl t

/-- C1: Round-trip law: for every byte sequence x (including the empty
sequence, sequences containing the marker byte 0xFF, and sequences made of
one value repeated more than 255 times), decompressing the compressed form
gives back x exactly. -/
theorem rle_roundtrip (x : List Nat) : rle_decompress (rle_compress x) = x := by
  have h := rle_decompress_compress_append x []
  simpa [rle_decompress_nil] using h

/-- Decompressing a single byte leaves it unchanged (a lone non-marker byte
is a literal; a lone marker is malformed and emitted literally). -/
theorem rle_decompress_single (c : Nat) : rle_decompress [c] = [c] := by
  by_cases hc : c = 255
  · subst hc
    exact rle_decompress_marker_last
  · rw [rle_decompress_lit _ _ hc, rle_decompress_nil]

/-- C10: Decoder totality on malformed inputs: a marker byte appearing as
the last byte of the input, or followed by a single non-zero byte at the
end of the input, is consumed as literal bytes; the whole input is consumed
and (after any valid encoder output) reproduced verbatim. -/
theorem rle_decompress_malformed_tail (x : List Nat) (c : Nat) (hc : c ≠ 0) :
    rle_decompress (rle_compress x ++ [255]) = x ++ [255] ∧
    rle_decompress (rle_compress x ++ [255, c]) = x ++ [255, c] := by
  constructor
  · rw [rle_decompress_compress_append, rle_decompress_marker_last]
  · rw [rle_decompress_compress_append, rle_decompress_marker_pair c hc,
      rle_decompress_single]

theorem rle_decompress_malformed_tail_witness :
    rle_decompress (rle_compress [7, 7, 7, 7, 7] ++ [255]) = [7, 7, 7, 7, 7, 255] ∧
    rle_decompress (rle_compress [7, 7, 7, 7, 7] ++ [255, 9]) = [7, 7, 7, 7, 7, 255, 9] := by
  have h := rle_decompress_malformed_tail [7, 7, 7, 7, 7] 9 (by decide)
  simpa using h

theorem rle_compress_nil : rle_compress [] = [] := by
  simp [rle_compress]

theorem runLen_replicate (v n : Nat) : runLen v (List.replicate n v) = n := by
  induction n with
  | zero => simp [runLen]
  | succ m ih => simp [List.replicate_succ, runLen, ih]

theorem drop_replicate (v m j : Nat) :
    (List.replicate m v).drop j = List.replicate (m - j) v := by
  induction j generalizing m with
  | zero => simp
  | succ i ih =>
    cases m with
    | zero => simp
    | succ m =>
      simp only [List.replicate_succ, List.drop_succ_cons, Nat.succ_sub_succ]
      exact ih m

/-- Compressing a run of n identical bytes, when at least 4 can be taken,
emits one capped token and continues on the remainder of the run. -/
theorem rle_compress_replicate (n v : Nat) (h4 : 4 ≤ min n 255) :
    rle_compress (List.replicate n v) =
      255 :: min n 255 :: v :: rle_compress (List.replicate (n - min n 255) v) := by
  cases n with
  | zero => simp at h4
  | succ m =>
    rw [List.replicate_succ, rle_compress.eq_def]
    dsimp only
    rw [runLen_replicate]
    rw [if_pos h4]
    rw [drop_replicate]
    have : m - (min (m + 1) 255 - 1) = m + 1 - min (m + 1) 255 := by
      have : 1 ≤ min (m + 1) 255 := le_min (by omega) (by omega)
      omega
    rw [this]

theorem runCountsOK_nil : runCountsOK [] = true := rfl

theorem runCountsOK_esc (r : List Nat) : runCountsOK (255 :: 0 :: r) = runCountsOK r := by
  cases r with
  | nil => rfl
  | cons a t => rfl

theorem runCountsOK_run (c v : Nat) (r : List Nat) (hc : c ≠ 0) :
    runCountsOK (255 :: c :: v :: r) = (decide (1 ≤ c ∧ c ≤ 255) && runCountsOK r) := by
  cases c with
  | zero => exact absurd rfl hc
  | succ n => rfl

theorem runCountsOK_lit (a : Nat) (r : List Nat) (ha : a ≠ 255) :
    runCountsOK (a :: r) = runCountsOK r := by
  rw [runCountsOK.eq_def]
  split <;> simp_all

theorem runCountsOK_escChunk (xs r : List Nat) :
    runCountsOK (xs.flatMap escByte ++ r) = runCountsOK r := by
  induction xs with
  | nil => simp
  | cons x xs ih =>
    rw [List.flatMap_cons, List.append_assoc]
    by_cases hx : x = 255
    · subst hx
      simp only [escByte_marker, List.cons_append, List.nil_append]
      rw [runCountsOK_esc, ih]
    · rw [escByte_lit _ hx, List.singleton_append, runCountsOK_lit _ _ hx, ih]

/-- Every run token emitted by the encoder carries a count in [1, 255],
whatever follows the encoder output. -/
theorem runCountsOK_compress_append :
    ∀ (l t : List Nat), runCountsOK (rle_compress l ++ t) = runCountsOK t := by
  have H : ∀ (n : Nat) (l : List Nat), l.length ≤ n →
      ∀ t, runCountsOK (rle_compress l ++ t) = runCountsOK t := by
    intro n
    induction n with
    | zero =>
      intro l hl t
      have hnil : l = [] := List.length_eq_zero.mp (Nat.le_zero.mp hl)
      subst hnil
      simp [rle_compress_nil]
    | succ n ih =>
      intro l hl t
      match l with
      | [] => simp [rle_compress_nil]
      | b :: rest =>
        have hlen : (rest.drop (min (runLen b rest + 1) 255 - 1)).length ≤ n := by
          simp only [List.length_cons] at hl
          simp only [List.length_drop]
          omega
        have h1 : 1 ≤ min (runLen b rest + 1) 255 := le_min (by omega) (by omega)
        have h255 : min (runLen b rest + 1) 255 ≤ 255 := min_le_right _ _
        rw [rle_compress.eq_def]
        dsimp only
        by_cases h4 : 4 ≤ min (runLen b rest + 1) 255
        · rw [if_pos h4]
          rw [List.cons_append, List.cons_append, List.cons_append]
          rw [runCountsOK_run _ _ _ (by omega)]
          rw [ih _ hlen]
          have : decide (1 ≤ min (runLen b rest + 1) 255 ∧
              min (runLen b rest + 1) 255 ≤ 255) = true := by
            simp only [decide_eq_true_eq]
            exact ⟨h1, h255⟩
          rw [this, Bool.true_and]
        · rw [if_neg h4]
          rw [List.append_assoc, runCountsOK_escChunk, ih _ hlen]
  intro l t
  exact H l.length l le_rfl t

/-- C7: Run-cap property: every run token emitted by rle_compress has a
count in [1, 255]; a run of 600 identical bytes encodes as three tokens
with counts 255, 255 and 90, none exceeding 255. -/
theorem rle_run_cap :
    (∀ data : List Nat, runCountsOK (rle_compress data) = true) ∧
    rle_compress (List.replicate 600 7) = [255, 255, 7, 255, 255, 7, 255, 90, 7] ∧
    runCountsOK [255, 255, 7, 255, 255, 7, 255, 90, 7] = true := by
  refine ⟨fun data => ?_, ?_, by decide⟩
  · have h := runCountsOK_compress_append data []
    simpa [runCountsOK_nil] using h
  · rw [rle_compress_replicate 600 7 (by norm_num)]
    norm_num
    rw [rle_compress_replicate 345 7 (by norm_num)]
    norm_num
    rw [rle_compress_replicate 90 7 (by norm_num)]
    norm_num [rle_compress_nil]

/-- C6: Escape correctness: a single 0xFF byte encodes as the escape
0xFF 0x00; four consecutive 0xFF bytes encode as the run token
0xFF 0x04 0xFF; a marker run shorter than 4 is emitted as one escape per
occurrence; and a non-marker byte in a short run is never escaped. -/
theorem rle_escape_correctness :
    rle_compress [255] = [255, 0] ∧
    rle_compress [255, 255, 255, 255] = [255, 4, 255] ∧
    rle_compress [255, 255, 255] = [255, 0, 255, 0, 255, 0] ∧
    ∀ v : Nat, v ≠ 255 → rle_compress [v, v, v] = [v, v, v] := by
  refine ⟨?_, ?_, ?_, fun v hv => ?_⟩
  · rw [rle_compress.eq_def]
    norm_num [runLen, escByte, rle_compress_nil]
  · rw [rle_compress.eq_def]
    norm_num [runLen, rle_compress_nil]
  · rw [rle_compress.eq_def]
    norm_num [runLen, escByte, rle_compress_nil]
  · rw [rle_compress.eq_def]
    simp only [runLen, if_pos rfl, List.drop, List.take]
    norm_num [escByte, hv, rle_compress_nil]

theorem rle_escape_correctness_witness : rle_compress [7, 7, 7] = [7, 7, 7] :=
  rle_escape_correctness.2.2.2 7 (by decide)

/-- Characterization of a forward scan over range' s n: it returns the
least position satisfying p within the scanned window. -/
theorem find?_range'_eq_some (p : Nat → Bool) (s n a : Nat) :
    (List.range' s n).find? p = some a ↔
      (s ≤ a ∧ a < s + n ∧ p a = true ∧ ∀ b, s ≤ b → b < a → p b = false) := by
  induction n generalizing s with
  | zero =>
    simp only [List.range'_zero, List.find?_nil]
    constructor
    · intro h
      exact absurd h (by simp)
    · intro h
      omega
  | succ n ih =>
    rw [List.range'_succ]
    by_cases hp : p s
    · rw [List.find?_cons_of_pos _ hp]
      constructor
      · intro h
        have ha : s = a := by simpa using h
        subst ha
        exact ⟨le_rfl, by omega, hp, fun b hb1 hb2 => by omega⟩
      · rintro ⟨h1, h2, h3, h4⟩
        by_cases hsa : s = a
        · rw [hsa]
        · have : p s = false := h4 s le_rfl (by omega)
          rw [this] at hp
          exact Bool.noConfusion hp
    · rw [List.find?_cons_of_neg _ hp, ih (s + 1)]
      constructor
      · rintro ⟨h1, h2, h3, h4⟩
        refine ⟨by omega, by omega, h3, fun b hb1 hb2 => ?_⟩
        by_cases hbs : b = s
        · subst hbs
          simpa using hp
        · exact h4 b (by omega) hb2
      · rintro ⟨h1, h2, h3, h4⟩
        have hsa : s ≠ a := by
          intro h
          subst h
          exact hp h3
        exact ⟨by omega, by omega, h3, fun b hb1 hb2 => h4 b (by omega) hb2⟩

/-- Characterization of the forward scans: find? over range n returns the
least position below n satisfying p. -/
theorem find?_range_eq_some (p : Nat → Bool) (n a : Nat) :
    (List.range n).find? p = some a ↔
      (a < n ∧ p a = true ∧ ∀ b, b < a → p b = false) := by
  rw [List.range_eq_range', find?_range'_eq_some]
  constructor
  · rintro ⟨h1, h2, h3, h4⟩
    exact ⟨by omega, h3, fun b hb => h4 b (by omega) hb⟩
  · rintro ⟨h1, h2, h3⟩
    exact ⟨by omega, by omega, h2, fun b hb1 hb2 => h3 b hb2⟩

/-- Characterization of the backward scans: find? over the reversed range
returns the greatest position below n satisfying p. -/
theorem find?_reverse_range_eq_some (p : Nat → Bool) (n a : Nat) :
    ((List.range n).reverse.find? p = some a) ↔
      (a < n ∧ p a = true ∧ ∀ b, a < b → b < n → p b = false) := by
  induction n with
  | zero =>
    simp only [List.range_zero, List.reverse_nil, List.find?_nil]
    constructor
    · intro h
      exact absurd h (by simp)
    · intro h
      omega
  | succ n ih =>
    have hrev : (List.range (n + 1)).reverse = n :: (List.range n).reverse := by
      rw [List.range_succ, List.reverse_append]
      rfl
    rw [hrev]
    by_cases hp : p n
    · rw [List.find?_cons_of_pos _ hp]
      constructor
      · intro h
        have ha : n = a := by simpa using h
        subst ha
        exact ⟨by omega, hp, fun b hb1 hb2 => by omega⟩
      · rintro ⟨h1, h2, h3⟩
        by_cases hna : n = a
        · rw [hna]
        · have : p n = false := h3 n (by omega) (by omega)
          rw [this] at hp
          exact Bool.noConfusion hp
    · rw [List.find?_cons_of_neg _ hp, ih]
      constructor
      · rintro ⟨h1, h2, h3⟩
        refine ⟨by omega, h2, fun b hb1 hb2 => ?_⟩
        by_cases hbn : b = n
        · subst hbn
          simpa using hp
        · exact h3 b hb1 (by omega)
      · rintro ⟨h1, h2, h3⟩
        have hna : a ≠ n := by
          intro h
          subst h
          exact hp h2
        exact ⟨by omega, h2, fun b hb1 hb2 => h3 b hb1 (by omega)⟩

theorem rowHasBright_iff (img : RasterImage) (t y : Nat) :
    rowHasBright img t y = true ↔
      ∃ x, x < img.width ∧ (img.px x y).exceeds t = true := by
  simp [rowHasBright, List.any_eq_true, List.mem_range]

theorem colHasBright_iff (img : RasterImage) (t x : Nat) :
    colHasBright img t x = true ↔
      ∃ y, y < img.height ∧ (img.px x y).exceeds t = true := by
  simp [colHasBright, List.any_eq_true, List.mem_range]

theorem topBorder_spec (img : RasterImage) (t : Nat)
    (hq : ∃ x y, qualifies img t x y) :
    topBorder img t < img.height ∧ rowHasBright img t (topBorder img t) = true ∧
      ∀ y, y < topBorder img t → rowHasBright img t y = false := by
  obtain ⟨x, y, hx, hy, hex⟩ := hq
  have hrow : rowHasBright img t y = true := (rowHasBright_iff img t y).mpr ⟨x, hx, hex⟩
  rcases hfind : (List.range img.height).find? (rowHasBright img t) with _ | a
  · exfalso
    have hnone := List.find?_eq_none.mp hfind y (List.mem_range.mpr hy)
    exact hnone hrow
  · have h := (find?_range_eq_some _ _ _).mp hfind
    unfold topBorder
    rw [hfind, Option.getD_some]
    exact h

theorem bottomBorder_spec (img : RasterImage) (t : Nat)
    (hq : ∃ x y, qualifies img t x y) :
    bottomBorder img t < img.height ∧ rowHasBright img t (bottomBorder img t) = true ∧
      ∀ y, bottomBorder img t < y → y < img.height → rowHasBright img t y = false := by
  obtain ⟨x, y, hx, hy, hex⟩ := hq
  have hrow : rowHasBright img t y = true := (rowHasBright_iff img t y).mpr ⟨x, hx, hex⟩
  rcases hfind : (List.range img.height).reverse.find? (rowHasBright img t) with _ | a
  · exfalso
    have hmem : y ∈ (List.range img.height).reverse := by
      rw [List.mem_reverse, List.mem_range]
      exact hy
    exact List.find?_eq_none.mp hfind y hmem hrow
  · have h := (find?_reverse_range_eq_some _ _ _).mp hfind
    unfold bottomBorder
    rw [hfind, Option.getD_some]
    exact h

theorem leftBorder_spec (img : RasterImage) (t : Nat)
    (hq : ∃ x y, qualifies img t x y) :
    leftBorder img t < img.width ∧ colHasBright img t (leftBorder img t) = true ∧
      ∀ x, x < leftBorder img t → colHasBright img t x = false := by
  obtain ⟨x, y, hx, hy, hex⟩ := hq
  have hcol : colHasBright img t x = true := (colHasBright_iff img t x).mpr ⟨y, hy, hex⟩
  rcases hfind : (List.range img.width).find? (colHasBright img t) with _ | a
  · exfalso
    exact List.find?_eq_none.mp hfind x (List.mem_range.mpr hx) hcol
  · have h := (find?_range_eq_some _ _ _).mp hfind
    unfold leftBorder
    rw [hfind, Option.getD_some]
    exact h

theorem rightBorder_spec (img : RasterImage) (t : Nat)
    (hq : ∃ x y, qualifies img t x y) :
    rightBorder img t < img.width ∧ colHasBright img t (rightBorder img t) = true ∧
      ∀ x, rightBorder img t < x → x < img.width → colHasBright img t x = false := by
  obtain ⟨x, y, hx, hy, hex⟩ := hq
  have hcol : colHasBright img t x = true := (colHasBright_iff img t x).mpr ⟨y, hy, hex⟩
  rcases hfind : (List.range img.width).reverse.find? (colHasBright img t) with _ | a
  · exfalso
    have hmem : x ∈ (List.range img.width).reverse := by
      rw [List.mem_reverse, List.mem_range]
      exact hx
    exact List.find?_eq_none.mp hfind x hmem hcol
  · have h := (find?_reverse_range_eq_some _ _ _).mp hfind
    unfold rightBorder
    rw [hfind, Option.getD_some]
    exact h

/-- C9: Uniform-image no-op: when no pixel of the image exceeds the
threshold in any channel, trim_black_borders returns the image unchanged,
never an empty, inverted or zero-area result. -/
theorem trim_uniform_noop (img : RasterImage) (t : Nat)
    (h : ∀ x, x < img.width → ∀ y, y < img.height → (img.px x y).exceeds t = false) :
    trim_black_borders img t = img := by
  have hrow : ∀ y, y < img.height → rowHasBright img t y = false := by
    intro y hy
    rw [← Bool.not_eq_true, rowHasBright_iff]
    rintro ⟨x, hx, hex⟩
    rw [h x hx y hy] at hex
    exact Bool.noConfusion hex
  have hcol : ∀ x, x < img.width → colHasBright img t x = false := by
    intro x hx
    rw [← Bool.not_eq_true, colHasBright_iff]
    rintro ⟨y, hy, hex⟩
    rw [h x hx y hy] at hex
    exact Bool.noConfusion hex
  have htp : topBorder img t = 0 := by
    unfold topBorder
    rw [List.find?_eq_none.mpr, Option.getD_none]
    intro y hy
    rw [List.mem_range] at hy
    rw [hrow y hy]
    exact Bool.noConfusion
  have hbt : bottomBorder img t = img.height - 1 := by
    unfold bottomBorder
    rw [List.find?_eq_none.mpr, Option.getD_none]
    intro y hy
    rw [List.mem_reverse, List.mem_range] at hy
    rw [hrow y hy]
    exact Bool.noConfusion
  have hl : leftBorder img t = 0 := by
    unfold leftBorder
    rw [List.find?_eq_none.mpr, Option.getD_none]
    intro x hx
    rw [List.mem_range] at hx
    rw [hcol x hx]
    exact Bool.noConfusion
  have hr : rightBorder img t = img.width - 1 := by
    unfold rightBorder
    rw [List.find?_eq_none.mpr, Option.getD_none]
    intro x hx
    rw [List.mem_reverse, List.mem_range] at hx
    rw [hcol x hx]
    exact Bool.noConfusion
  unfold trim_black_borders
  rw [htp, hbt, hl, hr]
  by_cases hcond : 0 < img.width - 1 ∧ 0 < img.height - 1
  · rw [if_pos hcond]
    ext
    · show img.width - 1 + 1 - 0 = img.width
      omega
    · show img.height - 1 + 1 - 0 = img.height
      omega
    · rename_i x y
      show img.px (x + 0) (y + 0) = img.px x y
      rw [Nat.add_zero, Nat.add_zero]
  · rw [if_neg hcond]

theorem trim_uniform_noop_witness :
    (∀ x, x < blackImage.width → ∀ y, y < blackImage.height →
      (blackImage.px x y).exceeds 10 = false) ∧
    trim_black_borders blackImage 10 = blackImage :=
  ⟨by decide, trim_uniform_noop blackImage 10 (by decide)⟩

/-- C2 (amended): for every image containing a pixel over the threshold,
the four border scans compute exactly the smallest enclosing rectangle of
the qualifying pixels, and trim_black_borders crops to that rectangle when
it spans at least two columns and two rows (left < right and top < bottom);
otherwise the image is returned unchanged. -/
theorem trim_bounding_box (img : RasterImage) (t : Nat)
    (hq : ∃ x y, qualifies img t x y) :
    isBoundingBox img t (leftBorder img t) (topBorder img t)
      (rightBorder img t) (bottomBorder img t) ∧
    ((leftBorder img t < rightBorder img t ∧ topBorder img t < bottomBorder img t) →
      trim_black_borders img t =
        crop img (leftBorder img t) (topBorder img t)
          (rightBorder img t) (bottomBorder img t)) ∧
    (¬(leftBorder img t < rightBorder img t ∧ topBorder img t < bottomBorder img t) →
      trim_black_borders img t = img) := by
  obtain ⟨htlt, htrow, htmin⟩ := topBorder_spec img t hq
  obtain ⟨hblt, hbrow, hbmax⟩ := bottomBorder_spec img t hq
  obtain ⟨hllt, hlcol, hlmin⟩ := leftBorder_spec img t hq
  obtain ⟨hrlt, hrcol, hrmax⟩ := rightBorder_spec img t hq
  refine ⟨⟨?_, ?_, ?_, ?_, ?_⟩, ?_, ?_⟩
  · rintro x y ⟨hx, hy, hex⟩
    have hcx : colHasBright img t x = true := (colHasBright_iff img t x).mpr ⟨y, hy, hex⟩
    have hry : rowHasBright img t y = true := (rowHasBright_iff img t y).mpr ⟨x, hx, hex⟩
    refine ⟨?_, ?_, ?_, ?_⟩
    · by_contra hlt
      push_neg at hlt
      rw [hlmin x hlt] at hcx
      exact Bool.noConfusion hcx
    · by_contra hlt
      push_neg at hlt
      rw [hrmax x hlt hx] at hcx
      exact Bool.noConfusion hcx
    · by_contra hlt
      push_neg at hlt
      rw [htmin y hlt] at hry
      exact Bool.noConfusion hry
    · by_contra hlt
      push_neg at hlt
      rw [hbmax y hlt hy] at hry
      exact Bool.noConfusion hry
  · obtain ⟨y, hy, hex⟩ := (colHasBright_iff img t (leftBorder img t)).mp hlcol
    exact ⟨y, hllt, hy, hex⟩
  · obtain ⟨y, hy, hex⟩ := (colHasBright_iff img t (rightBorder img t)).mp hrcol
    exact ⟨y, hrlt, hy, hex⟩
  · obtain ⟨x, hx, hex⟩ := (rowHasBright_iff img t (topBorder img t)).mp htrow
    exact ⟨x, hx, htlt, hex⟩
  · obtain ⟨x, hx, hex⟩ := (rowHasBright_iff img t (bottomBorder img t)).mp hbrow
    exact ⟨x, hx, hblt, hex⟩
  · intro hcond
    unfold trim_black_borders
    rw [if_pos hcond]
  · intro hcond
    unfold trim_black_borders
    rw [if_neg hcond]

/-- C2 (amended) witness at a concrete image with a non-degenerate content
box: bright pixels at (1,1) and (2,2) of a 4-by-4 image. -/
theorem trim_bounding_box_witness :
    (∃ x y, qualifies spreadImage 10 x y) ∧
    (isBoundingBox spreadImage 10 (leftBorder spreadImage 10) (topBorder spreadImage 10)
      (rightBorder spreadImage 10) (bottomBorder spreadImage 10) ∧
    ((leftBorder spreadImage 10 < rightBorder spreadImage 10 ∧
        topBorder spreadImage 10 < bottomBorder spreadImage 10) →
      trim_black_borders spreadImage 10 =
        crop spreadImage (leftBorder spreadImage 10) (topBorder spreadImage 10)
          (rightBorder spreadImage 10) (bottomBorder spreadImage 10)) ∧
    (¬(leftBorder spreadImage 10 < rightBorder spreadImage 10 ∧
        topBorder spreadImage 10 < bottomBorder spreadImage 10) →
      trim_black_borders spreadImage 10 = spreadImage)) :=
  ⟨⟨1, 1, by decide, by decide, by decide⟩,
    trim_bounding_box spreadImage 10 ⟨1, 1, by decide, by decide, by decide⟩⟩

/-- C2 counterexample: the 3-by-3 image with a single bright center pixel
has qualifying pixels, yet trim_black_borders does not crop to the smallest
enclosing rectangle (the 1-by-1 box at (1,1)): the claim as stated fails
because the trimmer skips cropping when left = right or top = bottom. -/
theorem trim_not_bounding_crop :
    (∃ x y, qualifies centerDotImage 10 x y) ∧
    ¬ ∃ l tp r bt, isBoundingBox centerDotImage 10 l tp r bt ∧
        trim_black_borders centerDotImage 10 = crop centerDotImage l tp r bt := by
  constructor
  · exact ⟨1, 1, by decide, by decide, by decide⟩
  · rintro ⟨l, tp, r, bt, ⟨henc, ⟨yl, hyl⟩, ⟨yr, hyr⟩, ⟨xt, hxt⟩, ⟨xb, hxb⟩⟩, heq⟩
    have honly : ∀ x y, qualifies centerDotImage 10 x y → x = 1 ∧ y = 1 := by
      rintro x y ⟨hx, hy, hex⟩
      have hdec : ∀ x' < 3, ∀ y' < 3,
          (centerDotImage.px x' y').exceeds 10 = true → x' = 1 ∧ y' = 1 := by decide
      exact hdec x hx y hy hex
    have hl : l = 1 := (honly l yl hyl).1
    have hr : r = 1 := (honly r yr hyr).1
    have htp : tp = 1 := (honly xt tp hxt).2
    have hbt : bt = 1 := (honly xb bt hxb).2
    subst hl
    subst hr
    subst htp
    subst hbt
    have hw : (trim_black_borders centerDotImage 10).width = 3 := by decide
    have hw' : (crop centerDotImage 1 1 1 1).width = 1 := rfl
    rw [heq, hw'] at hw
    exact absurd hw (by decide)

theorem pixelBytes_length (p : RGB) : (pixelBytes p).length = 2 := rfl

theorem packRow_length (img : RasterImage) (y : Nat) :
    ((List.range img.width).flatMap fun x => pixelBytes (img.px x y)).length =
      2 * img.width := by
  rw [List.length_flatMap]
  simp only [Function.comp_def]
  have hc : (List.map (fun x => (pixelBytes (img.px x y)).length) (List.range img.width)) =
      List.map (fun _ => 2) (List.range img.width) :=
    List.map_congr_left fun x _ => rfl
  rw [hc, List.map_const', List.length_range, List.sum_replicate, smul_eq_mul]
  ring

theorem pack565_length (img : RasterImage) :
    (pack565 img).length = img.width * img.height * 2 := by
  unfold pack565
  rw [List.length_flatMap]
  simp only [Function.comp_def]
  have hc : (List.map
      (fun y => ((List.range img.width).flatMap fun x => pixelBytes (img.px x y)).length)
      (List.range img.height)) =
      List.map (fun _ => 2 * img.width) (List.range img.height) :=
    List.map_congr_left fun y _ => packRow_length img y
  rw [hc, List.map_const', List.length_range, List.sum_replicate, smul_eq_mul]
  ring

/-- Indexing into a concatenation of constant-length chunks. -/
theorem flatMap_getElem?_const {f : Nat → List Nat} {c : Nat}
    (hf : ∀ a, (f a).length = c) :
    ∀ (l : List Nat) (i j : Nat) (hi : i < l.length), j < c →
      (l.flatMap f)[c * i + j]? = (f (l.get ⟨i, hi⟩))[j]? := by
  intro l
  induction l with
  | nil =>
    intro i j hi hj
    simp at hi
  | cons a l ih =>
    intro i j hi hj
    cases i with
    | zero =>
      rw [List.flatMap_cons]
      rw [Nat.mul_zero, Nat.zero_add]
      rw [List.getElem?_append_left (by rw [hf a]; exact hj)]
      rfl
    | succ i =>
      rw [List.flatMap_cons]
      have hc : c ≤ c * (i + 1) + j := by
        have : c * 1 ≤ c * (i + 1) := Nat.mul_le_mul_left c (by omega)
        omega
      rw [List.getElem?_append_right (by rw [hf a]; exact hc)]
      rw [hf a]
      have harith : c * (i + 1) + j - c = c * i + j := by
        have : c * (i + 1) = c * i + c := Nat.mul_succ c i
        omega
      rw [harith]
      have hi' : i < l.length := by
        simp only [List.length_cons] at hi
        omega
      rw [ih i j hi' hj]
      rfl

/-- Byte-level indexing of the packed buffer: the pixel at (x, y) occupies
bytes 2(y·width+x) and 2(y·width+x)+1, low byte first. -/
theorem pack565_getElem (img : RasterImage) (x y : Nat) (hx : x < img.width)
    (hy : y < img.height) :
    (pack565 img)[2 * (y * img.width + x)]? = some (rgb565 (img.px x y) &&& 0xFF) ∧
    (pack565 img)[2 * (y * img.width + x) + 1]? =
      some ((rgb565 (img.px x y) >>> 8) &&& 0xFF) := by
  have hy' : y < (List.range img.height).length := by
    rw [List.length_range]
    exact hy
  have hx' : x < (List.range img.width).length := by
    rw [List.length_range]
    exact hx
  have h0 := flatMap_getElem?_const (packRow_length img) (List.range img.height)
    y (2 * x) hy' (by omega)
  have h1 := flatMap_getElem?_const (packRow_length img) (List.range img.height)
    y (2 * x + 1) hy' (by omega)
  rw [List.get_range] at h0 h1
  have hin0 := flatMap_getElem?_const (f := fun a => pixelBytes (img.px a y)) (c := 2)
    (fun a => rfl) (List.range img.width) x 0 hx' (by omega)
  have hin1 := flatMap_getElem?_const (f := fun a => pixelBytes (img.px a y)) (c := 2)
    (fun a => rfl) (List.range img.width) x 1 hx' (by omega)
  rw [List.get_range] at hin0 hin1
  rw [Nat.add_zero] at hin0
  constructor
  · have hidx : 2 * (y * img.width + x) = 2 * img.width * y + 2 * x := by ring
    rw [hidx]
    unfold pack565
    rw [h0, hin0]
    rfl
  · have hidx : 2 * (y * img.width + x) + 1 = 2 * img.width * y + (2 * x + 1) := by ring
    rw [hidx]
    unfold pack565
    rw [h1, hin1]
    rfl

/-- The conversion never wraps: for 8-bit channels the packed word fits in
16 bits and the two emitted bytes reassemble it exactly. -/
theorem rgb565_no_wrap (p : RGB) (hr : p.r < 256) (hg : p.g < 256) (hb : p.b < 256) :
    rgb565 p < 65536 ∧
    (rgb565 p &&& 0xFF) + 256 * ((rgb565 p >>> 8) &&& 0xFF) = rgb565 p := by
  have hbound : rgb565 p < 65536 := by
    unfold rgb565
    have h1 : (p.r >>> 3) <<< 11 < 2 ^ 16 := by
      rw [Nat.shiftRight_eq_div_pow, Nat.shiftLeft_eq]
      have h' : p.r / 2 ^ 3 ≤ 31 := by omega
      calc p.r / 2 ^ 3 * 2 ^ 11 ≤ 31 * 2 ^ 11 := Nat.mul_le_mul_right _ h'
        _ < 2 ^ 16 := by norm_num
    have h2 : (p.g >>> 2) <<< 5 < 2 ^ 16 := by
      rw [Nat.shiftRight_eq_div_pow, Nat.shiftLeft_eq]
      have h' : p.g / 2 ^ 2 ≤ 63 := by omega
      calc p.g / 2 ^ 2 * 2 ^ 5 ≤ 63 * 2 ^ 5 := Nat.mul_le_mul_right _ h'
        _ < 2 ^ 16 := by norm_num
    have h3 : p.b >>> 3 < 2 ^ 16 := by
      rw [Nat.shiftRight_eq_div_pow]
      omega
    have := Nat.or_lt_two_pow (Nat.or_lt_two_pow h1 h2) h3
    simpa using this
  refine ⟨hbound, ?_⟩
  have hmask : ∀ z : Nat, z &&& 255 = z % 256 := fun z =>
    Nat.and_pow_two_sub_one_eq_mod z 8
  rw [hmask, hmask, Nat.shiftRight_eq_div_pow]
  norm_num
  omega

/-- C8: ColorPacker correctness: the packed output has length exactly
width·height·2; each pixel in row-major order is packed as the 16-bit word
((r >> 3) << 11) | ((g >> 2) << 5) | (b >> 3), emitted low byte first then
high byte without wrapping; and the 2-by-1 image with pixels (255,0,0) and
(0,0,0) packs to [0x00, 0xF8, 0x00, 0x00]. -/
theorem colorPacker_correct :
    (∀ img : RasterImage, (pack565 img).length = img.width * img.height * 2) ∧
    pack565 redBlackImage = [0x00, 0xF8, 0x00, 0x00] ∧
    (∀ (img : RasterImage) (x y : Nat), x < img.width → y < img.height →
      (pack565 img)[2 * (y * img.width + x)]? = some (rgb565 (img.px x y) &&& 0xFF) ∧
      (pack565 img)[2 * (y * img.width + x) + 1]? =
        some ((rgb565 (img.px x y) >>> 8) &&& 0xFF)) ∧
    (∀ p : RGB, p.r < 256 → p.g < 256 → p.b < 256 →
      rgb565 p < 65536 ∧
      (rgb565 p &&& 0xFF) + 256 * ((rgb565 p >>> 8) &&& 0xFF) = rgb565 p) :=
  ⟨pack565_length, by decide, pack565_getElem, rgb565_no_wrap⟩

/-- C8 witness at a concrete input: byte 0 of the packed 2-by-1 image and
the no-wrap facts for the red pixel. -/
theorem colorPacker_correct_witness :
    (pack565 redBlackImage)[2 * (0 * redBlackImage.width + 0)]? =
      some (rgb565 (redBlackImage.px 0 0) &&& 0xFF) ∧
    rgb565 { r := 255, g := 0, b := 0 } < 65536 :=
  ⟨(colorPacker_correct.2.2.1 redBlackImage 0 0 (by decide) (by decide)).1,
    (colorPacker_correct.2.2.2 { r := 255, g := 0, b := 0 }
      (by decide) (by decide) (by decide)).1⟩

/-- C5: Compression selection: the compressed form is kept iff it is
strictly smaller than the packed buffer; on a tie or enlargement the
original bytes are stored with the flag false; the stored length never
exceeds the uncompressed length. -/
theorem compression_selection (p : List Nat) :
    ((selectStored p).2 = true ↔ (rle_compress p).length < p.length) ∧
    (selectStored p).1 =
      (if (rle_compress p).length < p.length then rle_compress p else p) ∧
    (selectStored p).1.length ≤ p.length := by
  unfold selectStored
  by_cases h : (rle_compress p).length < p.length
  · rw [if_pos h, if_pos h]
    exact ⟨by simp [h], rfl, Nat.le_of_lt h⟩
  · rw [if_neg h, if_neg h]
    exact ⟨by simp [h], rfl, le_rfl⟩

/-- Round-trip of the codec, stated for reuse. -/
theorem decompress_compress (x : List Nat) :
    rle_decompress (rle_compress x) = x := by
  have h := rle_decompress_compress_append x []
  simpa [rle_decompress_nil] using h

/-- C3: the pipeline's compression stage agrees everywhere with the
self-checking stage described by the spec: the mismatch branch is
unreachable because decoding always reproduces the packed buffer, so no
asset is ever emitted whose stored compressed data fails to decode to the
original packed bytes. -/
theorem selfcheck_refinement (packed : List Nat) :
    selectStoredChecked packed = some (selectStored packed) ∧
    ((selectStored packed).2 = true →
      rle_decompress (selectStored packed).1 = packed) := by
  constructor
  · unfold selectStoredChecked
    rw [if_pos (decompress_compress packed)]
  · intro hflag
    unfold selectStored at hflag ⊢
    by_cases h : (rle_compress packed).length < packed.length
    · rw [if_pos h]
      exact decompress_compress packed
    · rw [if_neg h] at hflag
      exact absurd hflag (by simp)

/-- C3 witness at a compressible concrete buffer (eight 3s). -/
theorem selfcheck_refinement_witness :
    selectStoredChecked (List.replicate 8 3) = some (selectStored (List.replicate 8 3)) ∧
    (selectStored (List.replicate 8 3)).2 = true ∧
    rle_decompress (selectStored (List.replicate 8 3)).1 = List.replicate 8 3 := by
  have hcomp : rle_compress (List.replicate 8 3) = [255, 8, 3] := by
    rw [rle_compress_replicate 8 3 (by norm_num)]
    norm_num [rle_compress_nil]
  have hflag : (selectStored (List.replicate 8 3)).2 = true := by
    unfold selectStored
    rw [hcomp]
    norm_num
  exact ⟨(selfcheck_refinement (List.replicate 8 3)).1, hflag,
    (selfcheck_refinement (List.replicate 8 3)).2 hflag⟩

/-- Trimming a zero-width or zero-height image leaves it unchanged: the
border scans find nothing and the crop condition fails. -/
theorem trim_zero_dims (img : RasterImage) (t : Nat)
    (h : img.width = 0 ∨ img.height = 0) :
    trim_black_borders img t = img := by
  unfold trim_black_borders
  rw [if_neg]
  rintro ⟨hlr, htb⟩
  cases h with
  | inl h0 =>
    have hleft : leftBorder img t = 0 := by
      unfold leftBorder
      rw [h0]
      rfl
    have hright : rightBorder img t = 0 := by
      unfold rightBorder
      rw [h0]
      rfl
    rw [hleft, hright] at hlr
    exact absurd hlr (by omega)
  | inr h0 =>
    have htop : topBorder img t = 0 := by
      unfold topBorder
      rw [h0]
      rfl
    have hbot : bottomBorder img t = 0 := by
      unfold bottomBorder
      rw [h0]
      rfl
    rw [htop, hbot] at htb
    exact absurd htb (by omega)

/-- A zero-width or zero-height image packs to the empty byte buffer. -/
theorem pack565_zero_dims (img : RasterImage)
    (h : img.width = 0 ∨ img.height = 0) : pack565 img = [] := by
  rw [← List.length_eq_zero, pack565_length]
  cases h with
  | inl h0 => rw [h0]; ring
  | inr h0 => rw [h0]; ring

/-- C4 (amended): the conversion performs no dimension validation: a
zero-width or zero-height input flows through trimming, packing and
compression selection without error and yields an asset with empty data,
compression flag false and both sizes 0. -/
theorem zero_dims_empty_asset (img : RasterImage) (tb ur : Bool)
    (h : img.width = 0 ∨ img.height = 0) :
    (convert_to_lvgl_rgb565 img tb ur).data = [] ∧
    (convert_to_lvgl_rgb565 img tb ur).is_compressed = false ∧
    (convert_to_lvgl_rgb565 img tb ur).data_size = 0 ∧
    (convert_to_lvgl_rgb565 img tb ur).uncompressed_size = 0 := by
  have himg1 : (if tb then trim_black_borders img 10 else img) = img := by
    cases tb
    · rfl
    · simpa using trim_zero_dims img 10 h
  have hsel : (if ur then selectStored [] else (([] : List Nat), false)) = ([], false) := by
    cases ur
    · rfl
    · show selectStored [] = ([], false)
      unfold selectStored
      rw [if_neg (by simp)]
  simp [convert_to_lvgl_rgb565, himg1, pack565_zero_dims img h, hsel]

/-- C4 counterexample: on a zero-width image the specification mandates
failing with InvalidImageDimensions before any stage runs, but the source
conversion runs every stage and emits an (empty) asset instead. -/
theorem zero_dims_counterexample :
    convertChecked zeroWidthImage true true =
      Except.error ConvError.invalidImageDimensions ∧
    convert_to_lvgl_rgb565 zeroWidthImage true true =
      { width := 0, height := 5, data := [], is_compressed := false,
        data_size := 0, uncompressed_size := 0 } := by
  constructor
  · unfold convertChecked
    rw [if_pos (show zeroWidthImage.width = 0 ∨ zeroWidthImage.height = 0 from Or.inl rfl)]
  · obtain ⟨h1, h2, h3, h4⟩ := zero_dims_empty_asset zeroWidthImage true true (Or.inl rfl)
    have hw : (convert_to_lvgl_rgb565 zeroWidthImage true true).width = 0 := rfl
    have hh : (convert_to_lvgl_rgb565 zeroWidthImage true true).height = 5 := rfl
    exact AssetRecord.ext hw hh h1 h2 h3 h4

/-- C4 (amended) witness at the concrete zero-width image. -/
theorem zero_dims_empty_asset_witness :
    (zeroWidthImage.width = 0 ∨ zeroWidthImage.height = 0) ∧
    (convert_to_lvgl_rgb565 zeroWidthImage true true).data = [] ∧
    (convert_to_lvgl_rgb565 zeroWidthImage true true).is_compressed = false ∧
    (convert_to_lvgl_rgb565 zeroWidthImage true true).data_size = 0 ∧
    (convert_to_lvgl_rgb565 zeroWidthImage true true).uncompressed_size = 0 :=
  ⟨Or.inl rfl, zero_dims_empty_asset zeroWidthImage true true (Or.inl rfl)⟩
